import Mathlib

/-!
Verification development for the state-trie engine (turbo-geth `sem.go`).

The Go source concatenates three files: the CGO semantics bridge (out of
scope), the trie resolver (`TrieResolver`), and the state buffer / commit
pipeline (`TrieDbState`, `Buffer`, `TrieStateWriter`, `DbStateWriter`).
Byte strings are modelled as `List Nat` (each entry a byte value), Go maps as
association lists (first binding wins on lookup, assignment replaces the
first binding), Go map iteration as iteration over the association list, and
`uint64` arithmetic as `Nat` with explicit `% 2 ^ 64`.  Components that the
source file only calls (the trie proper, the hash builder, the `ethdb`
key-value store, the `accounts` package) are modelled from the specification
and marked as such in their doc comments.
-/

set_option maxRecDepth 20000

abbrev Bytes := List Nat

/-- Lexicographic comparison of byte strings, as Go `bytes.Compare`:
a proper prefix is smaller. -/
def compareBytes : Bytes → Bytes → Ordering
  | [], [] => .eq
  | [], _ :: _ => .lt
  | _ :: _, [] => .gt
  | a :: as, b :: bs =>
    if a < b then .lt
    else if b < a then .gt
    else compareBytes as bs

/-- Three-way comparison on `Nat`, used to relate truncated lexicographic
comparison to full comparison. -/
def compareNat (a b : Nat) : Ordering :=
  if a < b then .lt else if b < a then .gt else .eq

/-- Association-list lookup: the first binding for the key wins.  This is the
model of Go map lookup. -/
def lookupA {α β : Type} [DecidableEq α] : List (α × β) → α → Option β
  | [], _ => none
  | (k, v) :: t, a => if k = a then some v else lookupA t a

/-- Association-list update: replace the first binding for the key, or append
a new binding.  This is the model of Go map assignment. -/
def insertA {α β : Type} [DecidableEq α] : List (α × β) → α → β → List (α × β)
  | [], a, v => [(a, v)]
  | (k, w) :: t, a, v => if k = a then (a, v) :: t else (k, w) :: insertA t a v

/-- Association-list removal of every binding for the key.  This is the model
of Go `delete(m, k)`. -/
def eraseA {α β : Type} [DecidableEq α] (l : List (α × β)) (a : α) : List (α × β) :=
  l.filter (fun e => !(decide (e.1 = a)))

/-- Insertion into a list modelling a Go set map (`map[K]struct{}`). -/
def addSet {α : Type} [DecidableEq α] (l : List α) (a : α) : List α :=
  if a ∈ l then l else l ++ [a]

/-- Go `copy` of `src` into a freshly zeroed buffer of `n` bytes. -/
def copyFixed (n : Nat) (src : Bytes) : Bytes :=
  src.take n ++ List.replicate (n - src.length) 0

/-- Lookup in a two-level association list (the model of
`map[common.Hash]map[common.Hash][]byte`). -/
def lookup2 {β : Type} (su : List (Bytes × List (Bytes × β))) (a k : Bytes) : Option β :=
  match lookupA su a with
  | none => none
  | some m => lookupA m k

/-- Modelled from the spec: the account record of the `accounts` package
(nonce, balance, storage root, code hash, incarnation); the package is not
part of the source file.  The balance is modelled as a `Nat`. -/
structure Account where
  nonce : Nat
  balance : Nat
  initialised : Bool
  root : Bytes
  codeHash : Bytes
  incarnation : Nat
deriving DecidableEq

/-- Modelled from the spec: `trie.EmptyRoot = keccak256(RLP(0x80))`, the
canonical empty-trie root `56e81f17…b421` (spec §8 S1). -/
def EmptyRoot : Bytes :=
  [0x56, 0xe8, 0x1f, 0x17, 0x1b, 0xcc, 0x55, 0xa6, 0xff, 0x83, 0x45, 0xe6, 0x92, 0xc0,
   0xf8, 0x6e, 0x5b, 0x48, 0xe0, 0x1b, 0x99, 0x6c, 0xad, 0xc0, 0x01, 0x62, 0x2f, 0xb5,
   0xe3, 0x63, 0xb4, 0x21]

/-- The `Buffer` staging area of `sem.go` (one change period).  `accountUpdates`
values are `Option Account` (`none` models a nil `*accounts.Account`
tombstone); inner `storageUpdates` values are `Option Bytes` (`none` models a
nil `[]byte` tombstone). -/
structure Buffer where
  storageUpdates : List (Bytes × List (Bytes × Option Bytes))
  storageReads : List (Bytes × List Bytes)
  accountUpdates : List (Bytes × Option Account)
  accountReads : List Bytes
  deleted : List Bytes
  created : List Bytes
deriving DecidableEq

/-- Modelled from the spec: the in-memory trie, reduced to the two finite maps
the commit pipeline observes — account nodes keyed by address hash, and
storage nodes keyed by (address hash, storage key hash).  The composite trie
key `addrHash ‖ keyHash` of fixed-width hashes is modelled as the pair. -/
structure TrieModel where
  accountsT : List (Bytes × Account)
  storageT : List ((Bytes × Bytes) × Bytes)
deriving DecidableEq

/-- Modelled from the spec: `Trie.Get` on a composite storage key. -/
def getT (t : TrieModel) (k : Bytes × Bytes) : Option Bytes :=
  lookupA t.storageT k

/-- Modelled from the spec: `Trie.Update` on a composite storage key. -/
def updateT (t : TrieModel) (k : Bytes × Bytes) (v : Bytes) : TrieModel :=
  { t with storageT := insertA t.storageT k v }

/-- Modelled from the spec: `Trie.Delete` on a composite storage key. -/
def deleteT (t : TrieModel) (k : Bytes × Bytes) : TrieModel :=
  { t with storageT := eraseA t.storageT k }

/-- Modelled from the spec: `Trie.DeleteSubtree(addrHash)` keeps the account
node but empties the storage sub-trie of the address (per the comment at
`sem.go:1328`). -/
def deleteSubtree (t : TrieModel) (addrHash : Bytes) : TrieModel :=
  { t with storageT := t.storageT.filter (fun e => !(decide (e.1.1 = addrHash))) }

/-- Modelled from the spec: `Trie.DeepHash(addrHash)` returns `(found, hash)`
with `found = false` when the address has no materialised storage; every
caller in `updateTrieRoots` substitutes `EmptyRoot` in that case, so the two
steps are fused here.  The Merkle hash of a non-empty storage sub-trie is
abstracted as the parameter `f`. -/
def deepHashRoot (f : List (Bytes × Bytes) → Bytes) (t : TrieModel) (addrHash : Bytes) : Bytes :=
  let sub := (t.storageT.filter (fun e => decide (e.1.1 = addrHash))).map (fun e => (e.1.2, e.2))
  if sub.isEmpty then EmptyRoot else f sub

/-- The state mutated by `TrieDbState.updateTrieRoots`: the trie, the current
buffer's `accountUpdates` and the aggregate buffer's `accountUpdates`
(captured as `accountUpdates` at `sem.go:1301`). -/
structure URState where
  t : TrieModel
  bAcc : List (Bytes × Option Account)
  aggAcc : List (Bytes × Option Account)
deriving DecidableEq

/-! ### Resolver (`TrieResolver`, first part of `sem.go`) -/

/-- A `ResolveRequest` as used by `TrieResolver`: contract prefix (empty for
the accounts trie), nibble path, number of fixed nibbles, and the expected
root hash (empty when no check is wanted). -/
structure ResolveRequest where
  contract : Bytes
  resolveHex : Bytes
  resolvePos : Nat
  resolveHash : Bytes
deriving DecidableEq

/-- The invariant Go slicing imposes on a request: `resolveHex[:resolvePos]`
is in bounds. -/
abbrev reqWF (r : ResolveRequest) : Prop :=
  r.resolvePos ≤ r.resolveHex.length

/-- `TrieResolver.Less` (sem.go:123–136): compare contracts, then the first
`min(resolvePos_i, resolvePos_j)` nibbles, then `resolvePos`. -/
def lessReq (ci cj : ResolveRequest) : Bool :=
  match compareBytes ci.contract cj.contract with
  | .lt => true
  | .gt => false
  | .eq =>
    match compareBytes (ci.resolveHex.take (min ci.resolvePos cj.resolvePos))
        (cj.resolveHex.take (min ci.resolvePos cj.resolvePos)) with
    | .lt => true
    | .gt => false
    | .eq => decide (ci.resolvePos < cj.resolvePos)

/-- Insert a request into a list sorted by `lessReq`, going past every element
it is not strictly less than (this makes the sort below stable, as
`sort.Stable` is). -/
def insertReq (a : ResolveRequest) : List ResolveRequest → List ResolveRequest
  | [] => [a]
  | b :: l => if lessReq a b then a :: b :: l else b :: insertReq a l

/-- Left-to-right insertion sort: the model of `sort.Stable(tr)` with
`TrieResolver.Less`. -/
def sortReqsAux : List ResolveRequest → List ResolveRequest → List ResolveRequest
  | acc, [] => acc
  | acc, a :: l => sortReqsAux (insertReq a acc) l

def sortReqs (l : List ResolveRequest) : List ResolveRequest :=
  sortReqsAux [] l

/-- Modelled from the spec: `decodeNibbles` packs a nibble sequence two per
byte (spec §4.3 step 2); an odd trailing nibble occupies the high half of its
byte. -/
def packNibbles : Bytes → Bytes
  | [] => []
  | [n] => [n * 16]
  | n1 :: n2 :: t => (n1 * 16 + n2) :: packNibbles t

/-- The 32-byte zero-initialised region `key[pLen:]` that `decodeNibbles`
writes into (sem.go:170–172). -/
def packNibbles32 (nibbles : Bytes) : Bytes :=
  copyFixed 32 (packNibbles nibbles)

/-- `minLength` computed for a fresh `ResolveSet` (sem.go:177–182). -/
def minLengthFor (topLevels pos : Nat) : Nat :=
  if pos ≥ topLevels then 0 else topLevels - pos

/-- The keep/absorb test of the `PrepareResolveParams` loop (sem.go:164–166):
a request is kept when there is no previous kept request, or its contract or
its fixed-nibble prefix differs from the previous kept request's. -/
def keepCond (prev : Option ResolveRequest) (r : ResolveRequest) : Bool :=
  match prev with
  | none => true
  | some p =>
    !(decide (r.contract = p.contract) &&
      decide (r.resolveHex.take r.resolvePos = p.resolveHex.take p.resolvePos))

/-- The running state of the `PrepareResolveParams` loop: the loop index, the
collected `reqIndices`, `startkeys`, `fixedbits`, the resolve sets (each a
`minLength` together with the list of added nibble suffixes), and the previous
kept request. -/
structure PrepState where
  i : Nat
  reqIndices : List Nat
  startkeys : List Bytes
  fixedbits : List Nat
  rss : List (Nat × List Bytes)
  prevReq : Option ResolveRequest
deriving DecidableEq

def initPrep : PrepState :=
  { i := 0, reqIndices := [], startkeys := [], fixedbits := [], rss := [], prevReq := none }

/-- Append a suffix to the last resolve set (`tr.rss[len(tr.rss)-1].AddHex`,
sem.go:187–188). -/
def updateLast : List (Nat × List Bytes) → Bytes → List (Nat × List Bytes)
  | [], _ => []
  | [(n, s)], suf => [(n, s ++ [suf])]
  | x :: y :: t, suf => x :: updateLast (y :: t) suf

/-- One iteration of the `PrepareResolveParams` loop (sem.go:163–190).  A kept
request contributes a start key `contract ‖ packed prefix`, a `fixedbits`
entry `4 * (resolvePos + 2*len(contract))`, and a fresh resolve set seeded
with its suffix; an absorbed request only adds its suffix to the last resolve
set. -/
def prepStep (topLevels : Nat) (s : PrepState) (r : ResolveRequest) : PrepState :=
  if keepCond s.prevReq r then
    { i := s.i + 1,
      reqIndices := s.reqIndices ++ [s.i],
      startkeys := s.startkeys ++ [r.contract ++ packNibbles32 (r.resolveHex.take r.resolvePos)],
      fixedbits := s.fixedbits ++ [4 * (r.resolvePos + 2 * r.contract.length)],
      rss := s.rss ++ [(minLengthFor topLevels r.resolvePos, [r.resolveHex.drop r.resolvePos])],
      prevReq := some r }
  else
    { s with i := s.i + 1, rss := updateLast s.rss (r.resolveHex.drop r.resolvePos) }

def prepLoop (topLevels : Nat) (s : PrepState) (l : List ResolveRequest) : PrepState :=
  l.foldl (prepStep topLevels) s

/-- `TrieResolver.PrepareResolveParams` (sem.go:153–194): stable-sort the
requests, then run the keep/absorb loop; returns the start keys and fixed
bits for the multi-range walk. -/
def prepareResolveParams (topLevels : Nat) (reqs : List ResolveRequest) : List Bytes × List Nat :=
  let s := prepLoop topLevels initPrep (sortReqs reqs)
  (s.startkeys, s.fixedbits)

/-- The range-flush performed when `TrieResolver.Walker` sees a `keyIdx`
transition (sem.go:208–222) and at the end of `ResolveWithDb`
(sem.go:313–328).  The hash builder is represented by its observations at
flush time: whether it has a root (`hasRoot`), the built root node (`hbRoot`,
abstract type `α`) and the root's Keccak hash (`hbHash`).  The result is the
hook invocation `(resolveHex[:resolvePos], hbRoot)` passed to
`parentTrie.hook`, `none` when no root was built, or the
`mismatching hash` error (in which case no hook is invoked — in the source
the function returns before reaching `hook`).  The `RequiresRLP` re-hash is a
side effect on the request and does not affect this decision. -/
def flushRange {α : Type} (hasRoot : Bool) (hbRoot : α) (hbHash : Bytes)
    (req : ResolveRequest) : Except String (Option (Bytes × α)) :=
  if hasRoot then
    if req.resolveHash ≠ [] ∧ hbHash ≠ req.resolveHash then
      .error "mismatching hash"
    else
      .ok (some (req.resolveHex.take req.resolvePos, hbRoot))
  else
    .ok none

/-! ### Commit pipeline (`TrieDbState.updateTrieRoots`) -/

/-- One iteration of the storage-updates loop of `updateTrieRoots`
(sem.go:1340–1371): a non-empty value is an `Update`, an empty or nil value a
`Delete`; when `forward` is false the operation is only performed if `Get`
already succeeds on the composite key. -/
def storageStep (forward : Bool) (t : TrieModel) (addrHash : Bytes)
    (kv : Bytes × Option Bytes) : TrieModel :=
  let cKey := (addrHash, kv.1)
  if (kv.2.getD []).length > 0 then
    if forward then updateT t cKey (kv.2.getD [])
    else if (getT t cKey).isSome then updateT t cKey (kv.2.getD []) else t
  else
    if forward then deleteT t cKey
    else if (getT t cKey).isSome then deleteT t cKey else t

/-- The body of the per-address storage-updates iteration of
`updateTrieRoots` (sem.go:1339–1416): replay the key/value map `m` for
`addrHash`, then either write the recomputed `DeepHash` storage root back
onto the pending account records (`forward = true`, sem.go:1372–1392) or
compare it against them and fail on mismatch (`forward = false`,
sem.go:1393–1415). -/
def processAddrStorage (forward : Bool) (f : List (Bytes × Bytes) → Bytes) (s : URState)
    (addrHash : Bytes) (m : List (Bytes × Option Bytes)) : Except String URState :=
  let t1 := m.foldl (fun t kv => storageStep forward t addrHash kv) s.t
  if forward then
    let bAcc1 :=
      match lookupA s.bAcc addrHash with
      | some (some acc) =>
        insertA s.bAcc addrHash (some { acc with root := deepHashRoot f t1 addrHash })
      | _ => s.bAcc
    let aggAcc1 :=
      match lookupA s.aggAcc addrHash with
      | some (some acc) =>
        insertA s.aggAcc addrHash (some { acc with root := deepHashRoot f t1 addrHash })
      | _ => s.aggAcc
    .ok { t := t1, bAcc := bAcc1, aggAcc := aggAcc1 }
  else
    match lookupA s.bAcc addrHash with
    | some (some acc) =>
      if acc.root ≠ deepHashRoot f t1 addrHash then .error "mismatched storage root"
      else
        match lookupA s.aggAcc addrHash with
        | some (some acc2) =>
          if acc2.root ≠ deepHashRoot f t1 addrHash then .error "mismatched storage root"
          else .ok { t := t1, bAcc := s.bAcc, aggAcc := s.aggAcc }
        | _ => .ok { t := t1, bAcc := s.bAcc, aggAcc := s.aggAcc }
    | _ =>
      match lookupA s.aggAcc addrHash with
      | some (some acc2) =>
        if acc2.root ≠ deepHashRoot f t1 addrHash then .error "mismatched storage root"
        else .ok { t := t1, bAcc := s.bAcc, aggAcc := s.aggAcc }
      | _ => .ok { t := t1, bAcc := s.bAcc, aggAcc := s.aggAcc }

/-- Set the storage root of a pending account record to `EmptyRoot` when the
record is present and non-nil (sem.go:1430–1437). -/
def setRootEmpty (m : List (Bytes × Option Account)) (addrHash : Bytes) :
    List (Bytes × Option Account) :=
  match lookupA m addrHash with
  | some (some a) => insertA m addrHash (some { a with root := EmptyRoot })
  | _ => m

/-- The deleted-contracts loop at the end of one buffer iteration of
`updateTrieRoots` (sem.go:1417–1439): every address hash in `deleted` that is
not also in `created` has the pending account records' storage roots set to
`EmptyRoot` and its storage subtree removed with `DeleteSubtree`; an address
in both sets is skipped. -/
def deletedLoop (created : List Bytes) (st : URState) (deleted : List Bytes) : URState :=
  deleted.foldl
    (fun st addrHash =>
      if addrHash ∈ created then st
      else
        { t := deleteSubtree st.t addrHash,
          bAcc := setRootEmpty st.bAcc addrHash,
          aggAcc := setRootEmpty st.aggAcc addrHash })
    st

/-! ### Incarnation scan (`TrieDbState.nextIncarnation`) -/

/-- Modelled from the spec: `ethdb` `Walk(bucket, startKey, fixedBits, walker)`
iterates the bucket entries whose first `fixedBits` bits (here always a whole
number of bytes) agree with `startKey`, in bucket order, threading the walker
state and stopping as soon as the walker returns `false`. -/
def dbWalk {σ : Type} (startkey : Bytes) (fixedBytes : Nat)
    (walker : σ → Bytes → Bytes → σ × Bool) : List (Bytes × Bytes) → σ → σ
  | [], s => s
  | (k, v) :: rest, s =>
    if startkey.take fixedBytes = k.take fixedBytes then
      let r := walker s k v
      if r.2 then dbWalk startkey fixedBytes walker rest r.1 else r.1
    else
      dbWalk startkey fixedBytes walker rest s

/-- `binary.BigEndian.Uint64` over a byte list (each entry reduced to a byte). -/
def beUint64 (bs : Bytes) : Nat :=
  bs.foldl (fun a b => a * 256 + b % 256) 0

/-- Translation of the `uint64` expression `^uint64(0) ^ x`: XOR with the
all-ones word is the bitwise complement, which on a value `x < 2^64` equals
`2^64 - 1 - x`. -/
def complU64 (x : Nat) : Nat :=
  (2 ^ 64 - 1) - x

/-- `TrieDbState.nextIncarnation` (sem.go:1755–1787), non-historical branch:
walk the storage bucket with the address hash as the fixed 32-byte prefix
(start key padded to hash‖incarnation‖hash length); the walker copies bytes
32..40 of the first key into an 8-byte buffer and stops.  The result is
`(^stored) + 1` as a `uint64`, or `0` when no entry was found. -/
def nextIncarnation (bucket : List (Bytes × Bytes)) (addrHash : Bytes) : Nat :=
  let startkey := copyFixed (32 + 8 + 32) addrHash
  let s := dbWalk startkey 32
    (fun _ k _ => ((true, copyFixed 8 (k.drop 32)), false))
    bucket ((false, List.replicate 8 0) : Bool × Bytes)
  if s.1 then (complU64 (beUint64 s.2) + 1) % 2 ^ 64 else 0

/-! ### Readers (`TrieDbState.ReadAccountData`, `ReadAccountStorage`) -/

/-- A run-time outcome of a Go method: a nil-pointer dereference panic, or an
ordinary returned error. -/
inductive RunErr where
  | nilPointerPanic
  | goError (msg : String)
deriving DecidableEq

/-- `TrieDbState.readAccountDataByHash` (sem.go:1544–1574): try the trie,
then the database (`GetAsOf` when historical); a database error makes `enc`
nil, and an empty `enc` is returned as the pair (nil account, nil error); a
non-empty `enc` that fails to decode yields a decode error.  The database and
the account decoder (`DecodeForStorage`, not part of the source file) are
parameters. -/
def readAccountDataByHash (historical : Bool) (t : TrieModel)
    (db dbAsOf : Bytes → Except Unit Bytes) (decode : Bytes → Option Account)
    (addrHash : Bytes) : Option Account × Option String :=
  match lookupA t.accountsT addrHash with
  | some acc => (some acc, none)
  | none =>
    let enc :=
      match (if historical then dbAsOf addrHash else db addrHash) with
      | .ok e => e
      | .error _ => []
    if enc = [] then (none, none)
    else
      match decode enc with
      | some a => (some a, none)
      | none => (none, some "decode error")

/-- The 20 address bytes of the hard-coded debug constant
`0x00e6F031D7be9ad7702385A5DC0DF7bD70eB1f91` in `ReadAccountData`
(sem.go:1577); `strings.EqualFold` on the hex form is byte equality. -/
def theAccountBytes : Bytes :=
  [0x00, 0xe6, 0xf0, 0x31, 0xd7, 0xbe, 0x9a, 0xd7, 0x70, 0x23,
   0x85, 0xa5, 0xdc, 0x0d, 0xf7, 0xbd, 0x70, 0xeb, 0x1f, 0x91]

/-- The 20 address bytes of the hard-coded debug constant
`0x36770fF967bD05248B1c4c899FfB70caa3391b84` in `ReadAccountData`
(sem.go:1579). -/
def theContractBytes : Bytes :=
  [0x36, 0x77, 0x0f, 0xf9, 0x67, 0xbd, 0x05, 0x24, 0x8b, 0x1c,
   0x4c, 0x89, 0x9f, 0xfb, 0x70, 0xca, 0xa3, 0x39, 0x1b, 0x84]

/-- `TrieDbState.ReadAccountData` (sem.go:1576–1600).  The address-hashing
function is a parameter (`common.HashData` is Keccak-256).  When
`resolveReads` is set the read is recorded on `tds.currentBuffer`, which is
dereferenced without a nil check; the debug print for `theAccountBytes`
evaluates `acc.Balance.String()`, which dereferences a nil account pointer
when the account was not found — both are modelled as `nilPointerPanic`.
The debug print for `theContractBytes` formats `acc` with `%T` and does not
dereference it. -/
def readAccountData (hf : Bytes → Bytes) (historical : Bool) (t : TrieModel)
    (db dbAsOf : Bytes → Except Unit Bytes) (decode : Bytes → Option Account)
    (resolveReads : Bool) (current : Option Buffer)
    (address : Bytes) : Except RunErr (Option Account) :=
  let foundTheAccount := decide (address = theAccountBytes)
  let addrHash := hf address
  if resolveReads ∧ current = none then .error .nilPointerPanic
  else
    let r := readAccountDataByHash historical t db dbAsOf decode addrHash
    if foundTheAccount ∧ r.1 = none then .error .nilPointerPanic
    else
      match r.2 with
      | some e => .error (.goError e)
      | none => .ok r.1

/-- Whether the address hash is in the deleted set of an optional buffer
(the two guards of `ReadAccountStorage`, sem.go:1640–1649). -/
def inDeleted (buf : Option Buffer) (addrHash : Bytes) : Bool :=
  match buf with
  | some b => decide (addrHash ∈ b.deleted)
  | none => false

/-- `TrieDbState.ReadAccountStorage` (sem.go:1635–1692).  The value is a byte
string (`[]` models a nil slice, as returned for a deleted address).  When
`resolveReads` is set and `currentBuffer` is nil the read-recording block
dereferences a nil pointer.  A trie miss falls through to the database (or to
`GetAsOf` in historical mode); a database error is swallowed (`enc = nil`). -/
def readAccountStorage (hf : Bytes → Bytes) (resolveReads historical : Bool)
    (current agg : Option Buffer) (t : TrieModel)
    (db dbAsOf : Bytes × Nat × Bytes → Except Unit Bytes)
    (address : Bytes) (incarnation : Nat) (key : Bytes) : Except RunErr Bytes :=
  let addrHash := hf address
  if inDeleted current addrHash then .ok []
  else if inDeleted agg addrHash then .ok []
  else
    let seckey := hf key
    if resolveReads ∧ current = none then .error .nilPointerPanic
    else
      match getT t (addrHash, seckey) with
      | some enc => .ok enc
      | none =>
        let enc :=
          match (if historical then dbAsOf (addrHash, incarnation, seckey)
                 else db (addrHash, incarnation, seckey)) with
          | .ok e => e
          | .error _ => []
        .ok enc

/-! ### Writers (`TrieStateWriter`, `Buffer.merge`) -/

/-- `TrieStateWriter.WriteAccountStorage` (sem.go:1942–1965): the 32-byte
value is left-trimmed of zero bytes; a non-empty remainder is stored, an
empty one is stored as a nil tombstone, under the key hash in the address
hash's inner map.  The hashing function is a parameter; `incarnation` and
`original` are unused by the source. -/
def writeAccountStorageTSW (hf : Bytes → Bytes) (b : Buffer) (address : Bytes)
    (_incarnation : Nat) (key _original value : Bytes) : Buffer :=
  let addrHash := hf address
  let v := value.dropWhile (fun x => decide (x = 0))
  let m := (lookupA b.storageUpdates addrHash).getD []
  let seckey := hf key
  let m1 := if v.length > 0 then insertA m seckey (some v) else insertA m seckey none
  { b with storageUpdates := insertA b.storageUpdates addrHash m1 }

/-- `Buffer.merge` (sem.go:817–850): entry-by-entry union in which the other
(later) buffer's bindings overwrite this buffer's. -/
def mergeBuffer (b other : Buffer) : Buffer :=
  { storageUpdates :=
      other.storageUpdates.foldl
        (fun acc p =>
          let m := (lookupA acc p.1).getD []
          insertA acc p.1 (p.2.foldl (fun m kv => insertA m kv.1 kv.2) m))
        b.storageUpdates,
    storageReads :=
      other.storageReads.foldl
        (fun acc p =>
          let m := (lookupA acc p.1).getD []
          insertA acc p.1 (p.2.foldl addSet m))
        b.storageReads,
    accountUpdates :=
      other.accountUpdates.foldl (fun acc p => insertA acc p.1 p.2) b.accountUpdates,
    accountReads := other.accountReads.foldl addSet b.accountReads,
    deleted := other.deleted.foldl addSet b.deleted,
    created := other.created.foldl addSet b.created }

/-- `TrieStateWriter.DeleteAccount` (sem.go:1898–1907).  The hashing function
returns a (hash, error) pair exactly as `HashAddress` does; the source then
guards on `err != err`, which is preserved verbatim here. -/
def deleteAccountTSW (hf : Bytes → Bytes × Option String) (b : Buffer)
    (address : Bytes) : Except String Buffer :=
  let r := hf address
  if r.2 ≠ r.2 then .error (r.2.getD "")
  else
    .ok { b with
          accountUpdates := insertA b.accountUpdates r.1 none,
          storageUpdates := eraseA b.storageUpdates r.1,
          deleted := addSet b.deleted r.1 }

/-- The effect of the deleted-contracts loop on one pending account entry:
a present, non-nil record gets its storage root replaced by `EmptyRoot`;
a missing or nil record is left alone. -/
def rootsEmptied (v : Option (Option Account)) : Option (Option Account) :=
  v.map (Option.map (fun a => { a with root := EmptyRoot }))

/-! ### Concrete example inputs used by the witnesses -/

def exAddrHash : Bytes := List.replicate 32 1

def exStorageKey : Bytes := exAddrHash ++ [0, 0, 0, 0, 0, 0, 0, 5] ++ List.replicate 32 2

def exAccount : Account := { nonce := 1, balance := 2, initialised := true,
                             root := [9], codeHash := [], incarnation := 0 }

def exURState : URState :=
  { t := { accountsT := [], storageT := [(([1], [5]), [7]), (([2], [6]), [8])] },
    bAcc := [([1], some exAccount)],
    aggAcc := [([2], some exAccount)] }

def exBuffer : Buffer :=
  { storageUpdates := [], storageReads := [], accountUpdates := [],
    accountReads := [], deleted := [[1]], created := [] }

def exEmptyBuffer : Buffer :=
  { storageUpdates := [], storageReads := [], accountUpdates := [],
    accountReads := [], deleted := [], created := [] }

def exBuffer2 : Buffer :=
  { storageUpdates := [([1], [([2], some [5])])], storageReads := [],
    accountUpdates := [], accountReads := [], deleted := [], created := [] }

/-! ### Helper lemmas on the map models -/

theorem lookupA_insertA_self {α β : Type} [DecidableEq α] (l : List (α × β)) (k : α) (v : β) :
    lookupA (insertA l k v) k = some v := by
  induction l with
  | nil => simp [insertA, lookupA]
  | cons e t ih =>
    obtain ⟨a, b⟩ := e
    by_cases h : a = k
    · subst h; simp [insertA, lookupA]
    · simp [insertA, lookupA, h, ih]

theorem lookupA_insertA_ne {α β : Type} [DecidableEq α] (l : List (α × β)) (k k1 : α) (v : β)
    (h : k1 ≠ k) : lookupA (insertA l k v) k1 = lookupA l k1 := by
  have hk : ¬ (k = k1) := fun hh => h hh.symm
  induction l with
  | nil => simp [insertA, lookupA, hk]
  | cons e t ih =>
    obtain ⟨a, b⟩ := e
    by_cases ha : a = k
    · simp [insertA, lookupA, ha, hk]
    · by_cases hb : a = k1
      · simp [insertA, lookupA, ha, hb, h]
      · simp [insertA, lookupA, ha, hb, ih]

theorem lookupA_eraseA_self {α β : Type} [DecidableEq α] (l : List (α × β)) (k : α) :
    lookupA (eraseA l k) k = none := by
  induction l with
  | nil => simp [eraseA, lookupA]
  | cons e t ih =>
    obtain ⟨a, b⟩ := e
    by_cases h : a = k
    · subst h; simpa [eraseA, lookupA] using ih
    · simpa [eraseA, lookupA, h] using ih

theorem mem_addSet_self {α : Type} [DecidableEq α] (l : List α) (a : α) :
    a ∈ addSet l a := by
  by_cases h : a ∈ l <;> simp [addSet, h]

theorem getT_deleteSubtree_self (t : TrieModel) (a kh : Bytes) :
    getT (deleteSubtree t a) (a, kh) = none := by
  show lookupA (t.storageT.filter _) _ = none
  induction t.storageT with
  | nil => simp [lookupA]
  | cons e l ih =>
    obtain ⟨⟨a1, k1⟩, v1⟩ := e
    by_cases h : a1 = a
    · subst h
      simpa [List.filter_cons] using ih
    · have hne : ((a1, k1) : Bytes × Bytes) ≠ (a, kh) := by
        intro hc; exact h (congrArg Prod.fst hc)
      simpa [List.filter_cons, h, lookupA, hne] using ih

theorem getT_deleteSubtree_ne (t : TrieModel) (a a1 kh : Bytes) (h : a1 ≠ a) :
    getT (deleteSubtree t a) (a1, kh) = getT t (a1, kh) := by
  show lookupA (t.storageT.filter _) _ = lookupA t.storageT _
  induction t.storageT with
  | nil => simp
  | cons e l ih =>
    obtain ⟨⟨a2, k2⟩, v2⟩ := e
    by_cases h2 : a2 = a
    · subst h2
      have hne : ((a2, k2) : Bytes × Bytes) ≠ (a1, kh) := by
        intro hc; exact h (congrArg Prod.fst hc).symm
      simpa [List.filter_cons, lookupA, hne] using ih
    · by_cases h3 : ((a2, k2) : Bytes × Bytes) = (a1, kh)
      · simp [List.filter_cons, h, h2, lookupA, h3]
      · simpa [List.filter_cons, h2, lookupA, h3] using ih

theorem setRootEmpty_lookup_self (m : List (Bytes × Option Account)) (a : Bytes) :
    lookupA (setRootEmpty m a) a =
      (lookupA m a).map (Option.map (fun acc => { acc with root := EmptyRoot })) := by
  unfold setRootEmpty
  cases h : lookupA m a with
  | none => simp [h]
  | some o =>
    cases o with
    | none => simp [h]
    | some acc => simp [h, lookupA_insertA_self]

theorem setRootEmpty_lookup_ne (m : List (Bytes × Option Account)) (a a1 : Bytes)
    (h : a1 ≠ a) : lookupA (setRootEmpty m a) a1 = lookupA m a1 := by
  unfold setRootEmpty
  cases hm : lookupA m a with
  | none => simp
  | some o =>
    cases o with
    | none => simp
    | some acc => simp [lookupA_insertA_ne _ _ _ _ h]

/-! ### C1 -/

/-- C1: when the resolver finishes a request's range with a built root whose
hash differs from a non-empty `expectedHash` (`resolveHash`), the flush
returns the `mismatching hash` error and no hook invocation; when the hashes
agree, the hook is invoked at `resolveHex[:resolvePos]` with the built
root. -/
theorem flushRange_hash_check {α : Type} (hbRoot : α) (hbHash : Bytes)
    (req : ResolveRequest) (hne : req.resolveHash ≠ []) :
    (hbHash ≠ req.resolveHash →
      flushRange true hbRoot hbHash req = .error "mismatching hash") ∧
    (hbHash = req.resolveHash →
      flushRange true hbRoot hbHash req =
        .ok (some (req.resolveHex.take req.resolvePos, hbRoot))) := by
  constructor
  · intro hdiff
    simp [flushRange, hne, hdiff]
  · intro heq
    simp [flushRange, heq]

theorem flushRange_hash_check_witness :
    ((⟨[], [1, 2, 3], 2, [7]⟩ : ResolveRequest).resolveHash ≠ [] ∧
      flushRange true (0 : Nat) [9] ⟨[], [1, 2, 3], 2, [7]⟩ = .error "mismatching hash") ∧
    flushRange true (0 : Nat) [7] ⟨[], [1, 2, 3], 2, [7]⟩ = .ok (some ([1, 2], 0)) := by
  refine ⟨⟨by decide, ?_⟩, ?_⟩
  · exact (flushRange_hash_check (0 : Nat) [9] ⟨[], [1, 2, 3], 2, [7]⟩ (by decide)).1 (by decide)
  · exact (flushRange_hash_check (0 : Nat) [7] ⟨[], [1, 2, 3], 2, [7]⟩ (by decide)).2 rfl

/-! ### C8 -/

/-- C8: the `err != err` guard in `TrieStateWriter.DeleteAccount` is always
false, so the call always succeeds — even when the hashing step reports an
error — and the resulting buffer maps the address hash to a nil account
update, has no storage updates for it, and includes it in the deleted set. -/
theorem deleteAccountTSW_spec (hf : Bytes → Bytes × Option String) (b : Buffer)
    (address : Bytes) :
    ∃ b1, deleteAccountTSW hf b address = .ok b1 ∧
      lookupA b1.accountUpdates (hf address).1 = some none ∧
      lookupA b1.storageUpdates (hf address).1 = none ∧
      (hf address).1 ∈ b1.deleted := by
  have hstep : deleteAccountTSW hf b address =
      .ok { b with accountUpdates := insertA b.accountUpdates (hf address).1 none,
                   storageUpdates := eraseA b.storageUpdates (hf address).1,
                   deleted := addSet b.deleted (hf address).1 } := by
    unfold deleteAccountTSW
    simp
  exact ⟨_, hstep, lookupA_insertA_self _ _ _, lookupA_eraseA_self _ _, mem_addSet_self _ _⟩

/-! ### C9 -/

/-- C9: `TrieStateWriter.WriteAccountStorage` stores the value with all
leading zero bytes stripped, and an all-zero value is stored as a nil
tombstone; replaying a tombstone through the forward storage loop of
`updateTrieRoots` deletes the composite key from the trie rather than
storing a zero value. -/
theorem writeAccountStorageTSW_trims (hf : Bytes → Bytes) (b : Buffer)
    (address : Bytes) (incarnation : Nat) (key original value : Bytes)
    (t : TrieModel) (addrHash kh : Bytes) :
    lookup2 (writeAccountStorageTSW hf b address incarnation key original value).storageUpdates
        (hf address) (hf key) =
      some (if value.dropWhile (fun x => decide (x = 0)) = []
            then none
            else some (value.dropWhile (fun x => decide (x = 0)))) ∧
    getT (storageStep true t addrHash (kh, none)) (addrHash, kh) = none := by
  constructor
  · unfold writeAccountStorageTSW lookup2
    rw [lookupA_insertA_self]
    by_cases h : value.dropWhile (fun x => decide (x = 0)) = []
    · simp [h, lookupA_insertA_self]
    · have : (value.dropWhile (fun x => decide (x = 0))).length > 0 := by
        cases hd : value.dropWhile (fun x => decide (x = 0)) with
        | nil => exact absurd hd h
        | cons x xs => simp [hd]
      simp [h, this, lookupA_insertA_self]
  · show getT (storageStep true t addrHash (kh, none)) (addrHash, kh) = none
    unfold storageStep
    simp [deleteT, getT, lookupA_eraseA_self]

/-! ### C4 -/

/-- C4: in rewind mode (`forward = false`) the storage loop of
`updateTrieRoots` (i) performs an `Update` or `Delete` on a composite key
only when `Get` on that key already succeeds in the trie — otherwise the trie
is untouched; (ii) never writes to the pending account records (the account
maps of a successful run are returned unchanged); and (iii) when the
recomputed `DeepHash` storage root differs from a present, non-nil pending
account's `Root`, the run returns the `mismatched storage root` error. -/
theorem updateTrieRoots_backward_checks :
    (∀ (t : TrieModel) (addrHash : Bytes) (kv : Bytes × Option Bytes),
      getT t (addrHash, kv.1) = none → storageStep false t addrHash kv = t) ∧
    (∀ (f : List (Bytes × Bytes) → Bytes) (s : URState) (addrHash : Bytes)
        (m : List (Bytes × Option Bytes)) (r : URState),
      processAddrStorage false f s addrHash m = .ok r →
      r.bAcc = s.bAcc ∧ r.aggAcc = s.aggAcc) ∧
    (∀ (f : List (Bytes × Bytes) → Bytes) (s : URState) (addrHash : Bytes)
        (m : List (Bytes × Option Bytes)) (acc : Account),
      lookupA s.bAcc addrHash = some (some acc) →
      acc.root ≠ deepHashRoot f
          (m.foldl (fun t kv => storageStep false t addrHash kv) s.t) addrHash →
      processAddrStorage false f s addrHash m = .error "mismatched storage root") := by
  refine ⟨?_, ?_, ?_⟩
  · intro t addrHash kv h
    unfold storageStep
    by_cases hl : ((kv.2.getD []).length > 0) <;> simp [hl, h]
  · intro f s addrHash m r h
    unfold processAddrStorage at h
    simp only [Bool.false_eq_true, if_false] at h
    split at h
    · split at h
      · exact absurd h (by simp)
      · split at h
        · split at h
          · exact absurd h (by simp)
          · obtain rfl : URState.mk _ s.bAcc s.aggAcc = r := by
              simpa using h
            exact ⟨rfl, rfl⟩
        · obtain rfl : URState.mk _ s.bAcc s.aggAcc = r := by
            simpa using h
          exact ⟨rfl, rfl⟩
    · split at h
      · split at h
        · exact absurd h (by simp)
        · obtain rfl : URState.mk _ s.bAcc s.aggAcc = r := by
            simpa using h
          exact ⟨rfl, rfl⟩
      · obtain rfl : URState.mk _ s.bAcc s.aggAcc = r := by
          simpa using h
        exact ⟨rfl, rfl⟩
  · intro f s addrHash m acc hacc hneq
    unfold processAddrStorage
    simp [hacc, hneq]

theorem updateTrieRoots_backward_checks_witness :
    storageStep false { accountsT := [], storageT := [] } [1] ([2], some [3])
        = { accountsT := [], storageT := [] } ∧
    processAddrStorage false (fun _ => [])
        { t := { accountsT := [], storageT := [] },
          bAcc := [([9], some exAccount)], aggAcc := [] } [9] []
      = .error "mismatched storage root" := by
  constructor
  · exact updateTrieRoots_backward_checks.1 { accountsT := [], storageT := [] } [1]
      ([2], some [3]) rfl
  · exact updateTrieRoots_backward_checks.2.2 (fun _ => [])
      { t := { accountsT := [], storageT := [] },
        bAcc := [([9], some exAccount)], aggAcc := [] } [9] [] exAccount rfl (by decide)

/-! ### C3 -/

theorem deletedLoop_cons (created : List Bytes) (st : URState) (a : Bytes) (l : List Bytes) :
    deletedLoop created st (a :: l) =
      deletedLoop created
        (if a ∈ created then st
         else { t := deleteSubtree st.t a, bAcc := setRootEmpty st.bAcc a,
                aggAcc := setRootEmpty st.aggAcc a }) l := by
  simp only [deletedLoop, List.foldl_cons]

theorem rootsEmptied_idem (v : Option (Option Account)) :
    rootsEmptied (rootsEmptied v) = rootsEmptied v := by
  cases v with
  | none => rfl
  | some o => cases o <;> rfl

theorem deletedLoop_skip (created : List Bytes) (addr : Bytes) (hc : addr ∈ created) :
    ∀ (l : List Bytes) (st : URState),
      lookupA (deletedLoop created st l).bAcc addr = lookupA st.bAcc addr ∧
      lookupA (deletedLoop created st l).aggAcc addr = lookupA st.aggAcc addr ∧
      ∀ kh, getT (deletedLoop created st l).t (addr, kh) = getT st.t (addr, kh) := by
  intro l
  induction l with
  | nil => intro st; exact ⟨rfl, rfl, fun _ => rfl⟩
  | cons b l ih =>
    intro st
    rw [deletedLoop_cons]
    by_cases hb : b ∈ created
    · simpa [hb] using ih st
    · have hba : b ≠ addr := fun hh => hb (hh ▸ hc)
      have h1 := ih { t := deleteSubtree st.t b, bAcc := setRootEmpty st.bAcc b,
                      aggAcc := setRootEmpty st.aggAcc b }
      simp only [hb, if_false]
      refine ⟨?_, ?_, ?_⟩
      · rw [h1.1]; exact setRootEmpty_lookup_ne _ _ _ (Ne.symm hba)
      · rw [h1.2.1]; exact setRootEmpty_lookup_ne _ _ _ (Ne.symm hba)
      · intro kh
        rw [h1.2.2 kh]; exact getT_deleteSubtree_ne _ _ _ _ (Ne.symm hba)

theorem deletedLoop_preserve (created : List Bytes) (addr : Bytes)
    (v1 v2 : Option (Option Account)) :
    ∀ (l : List Bytes) (st : URState),
      lookupA st.bAcc addr = rootsEmptied v1 →
      lookupA st.aggAcc addr = rootsEmptied v2 →
      (∀ kh, getT st.t (addr, kh) = none) →
      lookupA (deletedLoop created st l).bAcc addr = rootsEmptied v1 ∧
      lookupA (deletedLoop created st l).aggAcc addr = rootsEmptied v2 ∧
      ∀ kh, getT (deletedLoop created st l).t (addr, kh) = none := by
  intro l
  induction l with
  | nil => intro st h1 h2 h3; exact ⟨h1, h2, h3⟩
  | cons b l ih =>
    intro st h1 h2 h3
    rw [deletedLoop_cons]
    by_cases hb : b ∈ created
    · simp only [hb, if_true]
      exact ih st h1 h2 h3
    · simp only [hb, if_false]
      by_cases hba : b = addr
      · subst hba
        apply ih
        · rw [setRootEmpty_lookup_self, h1]
          exact rootsEmptied_idem v1
        · rw [setRootEmpty_lookup_self, h2]
          exact rootsEmptied_idem v2
        · intro kh; exact getT_deleteSubtree_self _ _ _
      · have hba1 : addr ≠ b := fun hh => hba hh.symm
        apply ih
        · rw [setRootEmpty_lookup_ne _ _ _ hba1]; exact h1
        · rw [setRootEmpty_lookup_ne _ _ _ hba1]; exact h2
        · intro kh
          rw [getT_deleteSubtree_ne _ _ _ _ hba1]; exact h3 kh

theorem deletedLoop_main (created : List Bytes) (addr : Bytes) (hnc : addr ∉ created) :
    ∀ (l : List Bytes) (st : URState), addr ∈ l →
      lookupA (deletedLoop created st l).bAcc addr = rootsEmptied (lookupA st.bAcc addr) ∧
      lookupA (deletedLoop created st l).aggAcc addr = rootsEmptied (lookupA st.aggAcc addr) ∧
      ∀ kh, getT (deletedLoop created st l).t (addr, kh) = none := by
  intro l
  induction l with
  | nil => intro st h; cases h
  | cons b l ih =>
    intro st hmem
    rw [deletedLoop_cons]
    by_cases hba : b = addr
    · subst hba
      simp only [hnc, if_false]
      apply deletedLoop_preserve created b (lookupA st.bAcc b) (lookupA st.aggAcc b)
      · exact setRootEmpty_lookup_self _ _
      · exact setRootEmpty_lookup_self _ _
      · intro kh; exact getT_deleteSubtree_self _ _ _
    · have hmem1 : addr ∈ l := by
        cases hmem with
        | head => exact absurd rfl hba
        | tail _ hh => exact hh
      by_cases hb : b ∈ created
      · simp only [hb, if_true]
        exact ih st hmem1
      · simp only [hb, if_false]
        have hba1 : addr ≠ b := fun hh => hba hh.symm
        have hres := ih { t := deleteSubtree st.t b, bAcc := setRootEmpty st.bAcc b,
                          aggAcc := setRootEmpty st.aggAcc b } hmem1
        refine ⟨?_, ?_, hres.2.2⟩
        · rw [hres.1, setRootEmpty_lookup_ne _ _ _ hba1]
        · rw [hres.2.1, setRootEmpty_lookup_ne _ _ _ hba1]

/-- C3: in the deleted-contracts loop of `updateTrieRoots` (run with
`forward = true`; the loop is shared by both modes), every address hash in
`deleted` that is not also in `created` has its pending account records (in
the buffer and in the aggregate map, when present and non-nil) rewritten
with the canonical empty-trie root and its whole storage subtree removed
from the trie; an address hash that is in both `deleted` and `created` is
skipped, so neither its pending records nor its storage subtree are
touched by this loop. -/
theorem updateTrieRoots_deleted_spec (created deleted : List Bytes) (st : URState)
    (addr : Bytes) :
    (addr ∈ deleted → addr ∉ created →
      lookupA (deletedLoop created st deleted).bAcc addr
          = rootsEmptied (lookupA st.bAcc addr) ∧
      lookupA (deletedLoop created st deleted).aggAcc addr
          = rootsEmptied (lookupA st.aggAcc addr) ∧
      ∀ kh, getT (deletedLoop created st deleted).t (addr, kh) = none) ∧
    (addr ∈ created →
      lookupA (deletedLoop created st deleted).bAcc addr = lookupA st.bAcc addr ∧
      lookupA (deletedLoop created st deleted).aggAcc addr = lookupA st.aggAcc addr ∧
      ∀ kh, getT (deletedLoop created st deleted).t (addr, kh) = getT st.t (addr, kh)) := by
  constructor
  · intro hd hnc
    exact deletedLoop_main created addr hnc deleted st hd
  · intro hc
    exact deletedLoop_skip created addr hc deleted st

theorem updateTrieRoots_deleted_spec_witness :
    lookupA (deletedLoop [[2]] exURState [[1], [2]]).bAcc [1]
        = rootsEmptied (lookupA exURState.bAcc [1]) ∧
    getT (deletedLoop [[2]] exURState [[1], [2]]).t ([1], [5]) = none ∧
    getT (deletedLoop [[2]] exURState [[1], [2]]).t ([2], [6]) = getT exURState.t ([2], [6]) := by
  refine ⟨?_, ?_, ?_⟩
  · exact ((updateTrieRoots_deleted_spec [[2]] [[1], [2]] exURState [1]).1
      (by decide) (by decide)).1
  · exact ((updateTrieRoots_deleted_spec [[2]] [[1], [2]] exURState [1]).1
      (by decide) (by decide)).2.2 [5]
  · exact ((updateTrieRoots_deleted_spec [[2]] [[1], [2]] exURState [2]).2
      (by decide)).2.2 [6]

/-! ### C10 -/

/-- C10: when the address hash is in the `deleted` set of the current buffer
or of the aggregate buffer, `ReadAccountStorage` returns (nil, nil) for every
storage key and incarnation; the result does not depend on the trie or the
database (both are universally quantified here and unused on this path). -/
theorem readAccountStorage_deleted (hf : Bytes → Bytes) (resolveReads historical : Bool)
    (current agg : Option Buffer) (t : TrieModel)
    (db dbAsOf : Bytes × Nat × Bytes → Except Unit Bytes)
    (address : Bytes) (incarnation : Nat) (key : Bytes)
    (hdel : (∃ b, current = some b ∧ hf address ∈ b.deleted) ∨
            (∃ b, agg = some b ∧ hf address ∈ b.deleted)) :
    readAccountStorage hf resolveReads historical current agg t db dbAsOf
        address incarnation key = .ok [] := by
  unfold readAccountStorage
  by_cases h1 : inDeleted current (hf address)
  · simp [h1]
  · have h2 : inDeleted agg (hf address) = true := by
      rcases hdel with ⟨b, hb, hm⟩ | ⟨b, hb, hm⟩
      · exact absurd (by simp [inDeleted, hb, hm]) h1
      · simp [inDeleted, hb, hm]
    simp [h1, h2]

theorem readAccountStorage_deleted_witness :
    readAccountStorage (fun b => b) false false (some exBuffer) none
        { accountsT := [], storageT := [(([1], [5]), [7])] }
        (fun _ => .ok [3]) (fun _ => .ok [3]) [1] 0 [5] = .ok [] :=
  readAccountStorage_deleted (fun b => b) false false (some exBuffer) none
    { accountsT := [], storageT := [(([1], [5]), [7])] }
    (fun _ => .ok [3]) (fun _ => .ok [3]) [1] 0 [5]
    (Or.inl ⟨exBuffer, rfl, by decide⟩)

/-! ### C6 -/

/-- C6 (code bug in the source): for the hard-coded debug address
`0x00e6F031D7be9ad7702385A5DC0DF7bD70eB1f91`, when the account is present
neither in the trie nor in the backing database (the DB read returns empty),
`ReadAccountData` does not return (nil, nil): the leftover debug print
evaluates `acc.Balance.String()` on the nil account pointer and panics.
The claim's demotion to "account does not exist" holds for other addresses
but is violated at this one. -/
theorem readAccountData_debug_panic :
    readAccountData (fun b => b) false { accountsT := [], storageT := [] }
        (fun _ => .ok []) (fun _ => .ok []) (fun _ => none) false none
        theAccountBytes = .error .nilPointerPanic := by
  rfl

/-! ### C5 -/

theorem copyFixed_take32 (src : Bytes) (h : src.length = 32) :
    (copyFixed (32 + 8 + 32) src).take 32 = src := by
  unfold copyFixed
  have h1 : src.take (32 + 8 + 32) = src := List.take_of_length_le (by omega)
  rw [h1, List.take_append_of_le_length (by omega), List.take_of_length_le (by omega)]

theorem dbWalk_first (addrHash : Bytes) (h : addrHash.length = 32) (s0 : Bool × Bytes) :
    ∀ bucket : List (Bytes × Bytes),
      dbWalk (copyFixed (32 + 8 + 32) addrHash) 32
          (fun _ k _ => ((true, copyFixed 8 (k.drop 32)), false)) bucket s0 =
        match bucket.find? (fun kv => decide (addrHash <+: kv.1)) with
        | some kv => (true, copyFixed 8 (kv.1.drop 32))
        | none => s0 := by
  intro bucket
  induction bucket with
  | nil => rfl
  | cons kv rest ih =>
    obtain ⟨k, v⟩ := kv
    by_cases hp : addrHash <+: k
    · have hc : (copyFixed (32 + 8 + 32) addrHash).take 32 = k.take 32 := by
        rw [copyFixed_take32 _ h]
        have := List.prefix_iff_eq_take.mp hp
        rw [h] at this
        exact this
      simp [dbWalk, hc, List.find?_cons, hp]
    · have hc : ¬ ((copyFixed (32 + 8 + 32) addrHash).take 32 = k.take 32) := by
        rw [copyFixed_take32 _ h]
        intro hcc
        exact hp (List.prefix_iff_eq_take.mpr (by rw [h]; exact hcc))
      simp only [dbWalk, hc, if_false]
      rw [ih]
      simp [List.find?_cons, hp]

/-- C5: for every address hash with at least one storage-bucket entry under
its 32-byte prefix, `nextIncarnation` returns the bitwise complement of the
big-endian 64-bit incarnation field of the first such key in the walk, plus
one, as a `uint64`; with no matching entry it returns 0. -/
theorem nextIncarnation_spec (bucket : List (Bytes × Bytes)) (addrHash : Bytes)
    (h : addrHash.length = 32) :
    (∀ kv, bucket.find? (fun kv => decide (addrHash <+: kv.1)) = some kv →
      nextIncarnation bucket addrHash =
        (complU64 (beUint64 (copyFixed 8 (kv.1.drop 32))) + 1) % 2 ^ 64) ∧
    (bucket.find? (fun kv => decide (addrHash <+: kv.1)) = none →
      nextIncarnation bucket addrHash = 0) := by
  have hw := dbWalk_first addrHash h (false, List.replicate 8 0) bucket
  constructor
  · intro kv hfind
    rw [hfind] at hw
    simp only [nextIncarnation]
    rw [hw]
    simp
  · intro hfind
    rw [hfind] at hw
    simp only [nextIncarnation]
    rw [hw]
    simp

theorem nextIncarnation_spec_witness :
    nextIncarnation [(exStorageKey, [7])] exAddrHash = 18446744073709551611 := by
  have hx := (nextIncarnation_spec [(exStorageKey, [7])] exAddrHash (by decide)).1
    (exStorageKey, [7]) (by decide)
  rw [hx]
  decide

/-! ### C7 -/

theorem lookupA_split {β : Type} (a : Bytes) (v : β) :
    ∀ l : List (Bytes × β), lookupA l a = some v →
      ∃ l1 l2, l = l1 ++ (a, v) :: l2 ∧ ∀ e ∈ l1, e.1 ≠ a := by
  intro l
  induction l with
  | nil => intro h; cases h
  | cons e t ih =>
    intro h
    obtain ⟨k, w⟩ := e
    by_cases hk : k = a
    · subst hk
      simp [lookupA] at h
      subst h
      exact ⟨[], t, rfl, by simp⟩
    · simp [lookupA, hk] at h
      obtain ⟨l1, l2, heq, hne⟩ := ih h
      refine ⟨(k, w) :: l1, l2, by rw [heq, List.cons_append], ?_⟩
      intro e he
      rcases List.mem_cons.mp he with rfl | he1
      · exact hk
      · exact hne e he1

theorem foldl_insertA_notmem {β : Type} (k : Bytes) :
    ∀ (om : List (Bytes × β)) (m : List (Bytes × β)),
      k ∉ om.map Prod.fst →
      lookupA (om.foldl (fun m kv => insertA m kv.1 kv.2) m) k = lookupA m k := by
  intro om
  induction om with
  | nil => intro m _; rfl
  | cons e t ih =>
    intro m hmem
    obtain ⟨k1, v1⟩ := e
    simp only [List.map_cons, List.mem_cons] at hmem
    push_neg at hmem
    rw [List.foldl_cons]
    rw [ih _ hmem.2]
    exact lookupA_insertA_ne _ _ _ _ hmem.1

theorem foldl_insertA_last {β : Type} (k : Bytes) (v : β) :
    ∀ (om : List (Bytes × β)) (m : List (Bytes × β)),
      (om.map Prod.fst).Nodup → lookupA om k = some v →
      lookupA (om.foldl (fun m kv => insertA m kv.1 kv.2) m) k = some v := by
  intro om
  induction om with
  | nil => intro m _ h; cases h
  | cons e t ih =>
    intro m hnd h
    obtain ⟨k1, v1⟩ := e
    simp only [List.map_cons, List.nodup_cons] at hnd
    rw [List.foldl_cons]
    by_cases hk : k1 = k
    · subst hk
      simp [lookupA] at h
      subst h
      rw [foldl_insertA_notmem _ _ _ hnd.1]
      exact lookupA_insertA_self _ _ _
    · simp [lookupA, hk] at h
      exact ih _ hnd.2 h

theorem mergeStorage_fold_preserve (a : Bytes) :
    ∀ (l acc : List (Bytes × List (Bytes × Option Bytes))),
      a ∉ l.map Prod.fst →
      lookupA
        (l.foldl
          (fun acc p =>
            insertA acc p.1 (p.2.foldl (fun m kv => insertA m kv.1 kv.2)
              ((lookupA acc p.1).getD []))) acc) a
        = lookupA acc a := by
  intro l
  induction l with
  | nil => intro acc _; rfl
  | cons e t ih =>
    intro acc hmem
    obtain ⟨a1, om1⟩ := e
    simp only [List.map_cons, List.mem_cons] at hmem
    push_neg at hmem
    rw [List.foldl_cons, ih _ hmem.2]
    exact lookupA_insertA_ne _ _ _ _ hmem.1

/-- C7: within one buffer, two `TrieStateWriter.WriteAccountStorage` calls
with the same address and storage key leave only the second call's
(trimmed) value in the buffer's inner map; and `Buffer.merge` lets the later
buffer's entry for an (address hash, key hash) pair overwrite the earlier
buffer's — the merged map returns the later buffer's value. -/
theorem writeAccountStorage_last_writer_wins
    (hf : Bytes → Bytes) (b other : Buffer) (address : Bytes) (inc1 inc2 : Nat)
    (key orig1 orig2 v1 v2 : Bytes) (a k : Bytes) (om : List (Bytes × Option Bytes))
    (v : Option Bytes)
    (hnodup : (other.storageUpdates.map Prod.fst).Nodup)
    (hout : lookupA other.storageUpdates a = some om)
    (hnodin : (om.map Prod.fst).Nodup)
    (hin : lookupA om k = some v) :
    lookup2 (writeAccountStorageTSW hf (writeAccountStorageTSW hf b address inc1 key orig1 v1)
        address inc2 key orig2 v2).storageUpdates (hf address) (hf key)
      = some (if (v2.dropWhile (fun x => decide (x = 0))).length > 0
              then some (v2.dropWhile (fun x => decide (x = 0))) else none) ∧
    lookup2 (mergeBuffer b other).storageUpdates a k = some v := by
  constructor
  · unfold writeAccountStorageTSW lookup2
    rw [lookupA_insertA_self]
    by_cases h2 : ((v2.dropWhile (fun x => decide (x = 0))).length > 0) <;>
      simp [h2, lookupA_insertA_self]
  · obtain ⟨l1, l2, heq, hne1⟩ := lookupA_split a om other.storageUpdates hout
    have hmem2 : a ∉ l2.map Prod.fst := by
      rw [heq] at hnodup
      simp only [List.map_append, List.map_cons] at hnodup
      have := (List.nodup_append.mp hnodup).2.1
      exact (List.nodup_cons.mp this).1
    unfold mergeBuffer lookup2
    simp only
    rw [heq, List.foldl_append, List.foldl_cons]
    rw [mergeStorage_fold_preserve _ _ _ hmem2]
    rw [lookupA_insertA_self]
    exact foldl_insertA_last _ _ _ _ hnodin hin

theorem writeAccountStorage_last_writer_wins_witness :
    lookup2 (writeAccountStorageTSW (fun x => x)
        (writeAccountStorageTSW (fun x => x) exEmptyBuffer [3] 0 [4] [] [7])
        [3] 0 [4] [] [0, 6]).storageUpdates [3] [4] = some (some [6]) ∧
    lookup2 (mergeBuffer exEmptyBuffer exBuffer2).storageUpdates [1] [2] = some (some [5]) := by
  have hx := writeAccountStorage_last_writer_wins (fun x => x) exEmptyBuffer exBuffer2
    [3] 0 0 [4] [] [] [7] [0, 6] [1] [2] [([2], some [5])] (some [5])
    (by decide) (by decide) (by decide) (by decide)
  refine ⟨?_, hx.2⟩
  rw [hx.1]
  decide

/-! ### C2: properties of the comparator -/

theorem cb_eq_iff (a : Bytes) : ∀ b : Bytes, compareBytes a b = .eq ↔ a = b := by
  induction a with
  | nil => intro b; cases b <;> simp [compareBytes]
  | cons x xs ih =>
    intro b
    cases b with
    | nil => simp [compareBytes]
    | cons y ys =>
      by_cases h1 : x < y
      · simp only [compareBytes, h1, if_true]
        constructor
        · intro h; cases h
        · rintro h
          injection h with h2 h3
          omega
      · by_cases h2 : y < x
        · simp only [compareBytes, h1, if_false, h2, if_true]
          constructor
          · intro h; cases h
          · rintro h
            injection h with h3 h4
            omega
        · have hxy : x = y := by omega
          subst hxy
          simp [compareBytes, h1, h2, ih ys]

theorem cb_lt_gt (a : Bytes) : ∀ b : Bytes, compareBytes a b = .lt ↔ compareBytes b a = .gt := by
  induction a with
  | nil => intro b; cases b <;> simp [compareBytes]
  | cons x xs ih =>
    intro b
    cases b with
    | nil => simp [compareBytes]
    | cons y ys =>
      by_cases h1 : x < y
      · have h2 : ¬ y < x := by omega
        simp [compareBytes, h1, h2]
      · by_cases h2 : y < x
        · simp [compareBytes, h1, h2]
        · simp [compareBytes, h1, h2, ih ys]

theorem cb_lt_trans (a : Bytes) : ∀ b c : Bytes,
    compareBytes a b = .lt → compareBytes b c = .lt → compareBytes a c = .lt := by
  induction a with
  | nil =>
    intro b c hab hbc
    cases c with
    | nil =>
      cases b with
      | nil => exact hbc
      | cons y ys => simp [compareBytes] at hbc
    | cons z zs => simp [compareBytes]
  | cons x xs ih =>
    intro b c hab hbc
    cases b with
    | nil => simp [compareBytes] at hab
    | cons y ys =>
      cases c with
      | nil => simp [compareBytes] at hbc
      | cons z zs =>
        by_cases h1 : x < y
        · by_cases h2 : y < z
          · have h3 : x < z := by omega
            simp [compareBytes, h3]
          · by_cases h3 : z < y
            · simp [compareBytes, h2, h3] at hbc
            · have h4 : x < z := by omega
              simp [compareBytes, h4]
        · by_cases h4 : y < x
          · simp [compareBytes, h1, h4] at hab
          · by_cases h2 : y < z
            · have h5 : x < z := by omega
              simp [compareBytes, h5]
            · by_cases h3 : z < y
              · simp [compareBytes, h2, h3] at hbc
              · have hxz : ¬ x < z := by omega
                have hzx : ¬ z < x := by omega
                simp only [compareBytes, h1, if_false, h4] at hab
                simp only [compareBytes, h2, if_false, h3] at hbc
                simp only [compareBytes, hxz, if_false, hzx]
                exact ih ys zs hab hbc

theorem cb_prefix_lt (x : Bytes) : ∀ y : Bytes, x <+: y → x ≠ y → compareBytes x y = .lt := by
  induction x with
  | nil =>
    intro y hp hne
    cases y with
    | nil => exact absurd rfl hne
    | cons z zs => simp [compareBytes]
  | cons a as ih =>
    intro y hp hne
    cases y with
    | nil =>
      obtain ⟨t, ht⟩ := hp
      cases ht
    | cons b bs =>
      obtain ⟨rfl, hp2⟩ := List.cons_prefix_cons.mp hp
      have hne2 : as ≠ bs := fun hh => hne (by rw [hh])
      simp [compareBytes, ih bs hp2 hne2]

theorem cb_split (x : Bytes) : ∀ y : Bytes,
    compareBytes x y =
      (match compareBytes (x.take (min x.length y.length)) (y.take (min x.length y.length)) with
       | .lt => Ordering.lt
       | .gt => Ordering.gt
       | .eq => compareNat x.length y.length) := by
  induction x with
  | nil =>
    intro y
    cases y with
    | nil => rfl
    | cons b bs => simp [compareBytes, compareNat]
  | cons a as ih =>
    intro y
    cases y with
    | nil => simp [compareBytes, compareNat]
    | cons b bs =>
      have hmin : min (a :: as).length (b :: bs).length = (min as.length bs.length) + 1 := by
        simp [Nat.succ_min_succ]
      rw [hmin]
      simp only [List.take_succ_cons]
      by_cases h1 : a < b
      · simp [compareBytes, h1]
      · by_cases h2 : b < a
        · simp [compareBytes, h1, h2]
        · simp only [compareBytes, h1, if_false, h2]
          rw [ih bs]
          have hcn : compareNat (a :: as).length (b :: bs).length
              = compareNat as.length bs.length := by
            simp [compareNat, List.length_cons, Nat.add_lt_add_iff_right]
          rw [hcn]

theorem cb_split_lt (x y : Bytes)
    (h : compareBytes (x.take (min x.length y.length)) (y.take (min x.length y.length)) = .lt) :
    compareBytes x y = .lt := by
  rw [cb_split x y, h]

theorem cb_split_gt (x y : Bytes)
    (h : compareBytes (x.take (min x.length y.length)) (y.take (min x.length y.length)) = .gt) :
    compareBytes x y = .gt := by
  rw [cb_split x y, h]

theorem cb_split_eq (x y : Bytes)
    (h : compareBytes (x.take (min x.length y.length)) (y.take (min x.length y.length)) = .eq) :
    compareBytes x y = compareNat x.length y.length := by
  rw [cb_split x y, h]

theorem length_takeWF (r : ResolveRequest) (h : reqWF r) :
    (r.resolveHex.take r.resolvePos).length = r.resolvePos := by
  rw [List.length_take]
  unfold reqWF at h
  omega

theorem take_min_left (r : ResolveRequest) (m : Nat) (hm : m ≤ r.resolvePos) :
    (r.resolveHex.take r.resolvePos).take m = r.resolveHex.take m := by
  rw [List.take_take]
  congr 1
  omega

/-- Under the slicing invariant, `TrieResolver.Less` is the lexicographic
order on the pairs (contract, fixed nibble prefix), where a proper prefix
sorts first. -/
theorem lessReq_iff (a b : ResolveRequest) (ha : reqWF a) (hb : reqWF b) :
    lessReq a b = true ↔
      (compareBytes a.contract b.contract = .lt ∨
       (a.contract = b.contract ∧
        compareBytes (a.resolveHex.take a.resolvePos) (b.resolveHex.take b.resolvePos) = .lt)) := by
  have hla := length_takeWF a ha
  have hlb := length_takeWF b hb
  have hta : (a.resolveHex.take a.resolvePos).take (min a.resolvePos b.resolvePos)
      = a.resolveHex.take (min a.resolvePos b.resolvePos) :=
    take_min_left a _ (Nat.min_le_left _ _)
  have htb : (b.resolveHex.take b.resolvePos).take (min a.resolvePos b.resolvePos)
      = b.resolveHex.take (min a.resolvePos b.resolvePos) :=
    take_min_left b _ (Nat.min_le_right _ _)
  unfold lessReq
  cases hcc : compareBytes a.contract b.contract with
  | lt => simp
  | gt =>
    constructor
    · intro h; cases h
    · rintro (h | ⟨hc2, -⟩)
      · cases h
      · have h2 := (cb_eq_iff a.contract b.contract).mpr hc2
        rw [hcc] at h2
        cases h2
  | eq =>
    have hcontr : a.contract = b.contract := (cb_eq_iff _ _).mp hcc
    cases hin : compareBytes (a.resolveHex.take (min a.resolvePos b.resolvePos))
        (b.resolveHex.take (min a.resolvePos b.resolvePos)) with
    | lt =>
      have hw : compareBytes (a.resolveHex.take a.resolvePos)
          (b.resolveHex.take b.resolvePos) = .lt := by
        apply cb_split_lt
        rw [hla, hlb, hta, htb]
        exact hin
      simp [hw, hcontr]
    | gt =>
      have hw : compareBytes (a.resolveHex.take a.resolvePos)
          (b.resolveHex.take b.resolvePos) = .gt := by
        apply cb_split_gt
        rw [hla, hlb, hta, htb]
        exact hin
      constructor
      · intro h; cases h
      · rintro (h | ⟨-, hw2⟩)
        · cases h
        · rw [hw] at hw2; cases hw2
    | eq =>
      have hw : compareBytes (a.resolveHex.take a.resolvePos)
          (b.resolveHex.take b.resolvePos) = compareNat a.resolvePos b.resolvePos := by
        have h3 := cb_split_eq (a.resolveHex.take a.resolvePos)
          (b.resolveHex.take b.resolvePos) (by rw [hla, hlb, hta, htb]; exact hin)
        rw [hla, hlb] at h3
        exact h3
      by_cases hlt : a.resolvePos < b.resolvePos
      · have hcn : compareNat a.resolvePos b.resolvePos = .lt := by
          simp [compareNat, hlt]
        have hw2 : compareBytes (a.resolveHex.take a.resolvePos)
            (b.resolveHex.take b.resolvePos) = .lt := by rw [hw, hcn]
        simp [hlt, hcontr, hw2]
      · have h2 : compareNat a.resolvePos b.resolvePos ≠ .lt := by
          unfold compareNat
          rw [if_neg hlt]
          by_cases h3 : b.resolvePos < a.resolvePos <;> simp [h3]
        constructor
        · intro h
          exact absurd (of_decide_eq_true h) hlt
        · rintro (h | ⟨-, hw2⟩)
          · cases h
          · rw [hw] at hw2
            exact absurd hw2 h2

theorem lessReq_asymm (a b : ResolveRequest) (ha : reqWF a) (hb : reqWF b)
    (h : lessReq a b = true) : lessReq b a = false := by
  cases hba : lessReq b a with
  | false => rfl
  | true =>
    exfalso
    rcases (lessReq_iff a b ha hb).mp h with hc | ⟨hc, hw⟩ <;>
      rcases (lessReq_iff b a hb ha).mp hba with hc2 | ⟨hc2, hw2⟩
    · have h3 := (cb_lt_gt b.contract a.contract).mp hc2
      rw [hc] at h3
      cases h3
    · have h3 := (cb_eq_iff a.contract b.contract).mpr hc2.symm
      rw [hc] at h3
      cases h3
    · have h3 := (cb_eq_iff b.contract a.contract).mpr hc.symm
      rw [hc2] at h3
      cases h3
    · have h3 := (cb_lt_gt _ _).mp hw2
      rw [hw] at h3
      cases h3

theorem lessReq_trans (a b c : ResolveRequest) (ha : reqWF a) (hb : reqWF b) (hc : reqWF c)
    (h1 : lessReq a b = true) (h2 : lessReq b c = true) : lessReq a c = true := by
  apply (lessReq_iff a c ha hc).mpr
  rcases (lessReq_iff a b ha hb).mp h1 with hab | ⟨hab, hwab⟩ <;>
    rcases (lessReq_iff b c hb hc).mp h2 with hbc | ⟨hbc, hwbc⟩
  · exact Or.inl (cb_lt_trans _ _ _ hab hbc)
  · exact Or.inl (by rw [← hbc]; exact hab)
  · exact Or.inl (by rw [hab]; exact hbc)
  · exact Or.inr ⟨hab.trans hbc, cb_lt_trans _ _ _ hwab hwbc⟩

theorem mem_insertReq (a x : ResolveRequest) : ∀ l, x ∈ insertReq a l ↔ x = a ∨ x ∈ l := by
  intro l
  induction l with
  | nil => simp [insertReq]
  | cons b t ih =>
    unfold insertReq
    by_cases h : lessReq a b = true
    · simp [h]
    · simp [h, ih]
      tauto

theorem pairwise_insertReq (a : ResolveRequest) :
    ∀ l : List ResolveRequest,
      reqWF a → (∀ x ∈ l, reqWF x) →
      l.Pairwise (fun x y => lessReq y x = false) →
      (insertReq a l).Pairwise (fun x y => lessReq y x = false) := by
  intro l
  induction l with
  | nil => intro _ _ _; simp [insertReq]
  | cons b t ih =>
    intro hwa hwl hp
    unfold insertReq
    have hwb : reqWF b := hwl b (by simp)
    have hwt : ∀ x ∈ t, reqWF x := fun x hx => hwl x (by simp [hx])
    rcases List.pairwise_cons.mp hp with ⟨hbt, hpt⟩
    by_cases h : lessReq a b = true
    · simp only [h, if_true]
      refine List.pairwise_cons.mpr ⟨?_, hp⟩
      intro x hx
      rcases List.mem_cons.mp hx with rfl | hxt
      · exact lessReq_asymm a x hwa hwb h
      · cases hxa : lessReq x a with
        | false => rfl
        | true =>
          exfalso
          have h5 := lessReq_trans x a b (hwt x hxt) hwa hwb hxa h
          rw [hbt x hxt] at h5
          cases h5
    · simp only [h, if_false]
      have hfalse : lessReq a b = false := by
        cases h6 : lessReq a b with
        | false => rfl
        | true => exact absurd h6 h
      refine List.pairwise_cons.mpr ⟨?_, ih hwa hwt hpt⟩
      intro x hx
      rcases (mem_insertReq a x t).mp hx with rfl | hxt
      · exact hfalse
      · exact hbt x hxt

theorem mem_sortReqsAux : ∀ (l acc : List ResolveRequest) (x : ResolveRequest),
    x ∈ sortReqsAux acc l ↔ x ∈ acc ∨ x ∈ l := by
  intro l
  induction l with
  | nil => intro acc x; simp [sortReqsAux]
  | cons a t ih =>
    intro acc x
    unfold sortReqsAux
    rw [ih, mem_insertReq]
    simp
    tauto

theorem sorted_sortReqsAux :
    ∀ (l acc : List ResolveRequest),
      (∀ x ∈ acc, reqWF x) → (∀ x ∈ l, reqWF x) →
      acc.Pairwise (fun x y => lessReq y x = false) →
      (sortReqsAux acc l).Pairwise (fun x y => lessReq y x = false) := by
  intro l
  induction l with
  | nil => intro acc _ _ hp; exact hp
  | cons a t ih =>
    intro acc h1 h2 hp
    unfold sortReqsAux
    apply ih
    · intro x hx
      rcases (mem_insertReq a x acc).mp hx with rfl | hxa
      · exact h2 x (by simp)
      · exact h1 x hxa
    · intro x hx
      exact h2 x (by simp [hx])
    · exact pairwise_insertReq a acc (h2 a (by simp)) h1 hp

theorem sortReqs_sorted (reqs : List ResolveRequest) (hwf : ∀ r ∈ reqs, reqWF r) :
    (sortReqs reqs).Pairwise (fun x y => lessReq y x = false) :=
  sorted_sortReqsAux reqs [] (by simp) hwf (by simp)

theorem mem_sortReqs (reqs : List ResolveRequest) (x : ResolveRequest) :
    x ∈ sortReqs reqs ↔ x ∈ reqs := by
  unfold sortReqs
  rw [mem_sortReqsAux]
  simp

theorem prepLoop_append (tl : Nat) (s : PrepState) (l1 l2 : List ResolveRequest) :
    prepLoop tl s (l1 ++ l2) = prepLoop tl (prepLoop tl s l1) l2 := by
  unfold prepLoop
  rw [List.foldl_append]

theorem prepStep_prevReq (tl : Nat) (s : PrepState) (r : ResolveRequest) :
    (prepStep tl s r).prevReq = some r ∨ (prepStep tl s r).prevReq = s.prevReq := by
  unfold prepStep
  by_cases h : keepCond s.prevReq r = true <;> simp [h]

theorem prevReq_mem (tl : Nat) :
    ∀ (l : List ResolveRequest) (s : PrepState) (p : ResolveRequest),
      (prepLoop tl s l).prevReq = some p → p ∈ l ∨ s.prevReq = some p := by
  intro l
  induction l with
  | nil => intro s p h; exact Or.inr h
  | cons r t ih =>
    intro s p h
    unfold prepLoop at h
    rw [List.foldl_cons] at h
    rcases ih (prepStep tl s r) p h with hmem | hprev
    · exact Or.inl (by simp [hmem])
    · rcases prepStep_prevReq tl s r with h1 | h1
      · rw [h1] at hprev
        have : r = p := Option.some_inj.mp hprev
        exact Or.inl (by simp [this])
      · rw [h1] at hprev
        exact Or.inr hprev

/-- C2: after the stable sort inside `PrepareResolveParams`, a request whose
(contract, `resolveHex[:resolvePos]`) pair is a prefix of (including equal
to) the previous kept request's pair is absorbed: the loop step adds no
`startKey`, `fixedBits`, or `reqIndices` entry, keeps the previous kept
request, and only appends the suffix `resolveHex[resolvePos:]` to the last
resolve set — the one belonging to the request it is absorbed into.
(The sort makes a strictly shorter prefix impossible at this point, and an
equal prefix takes the absorption branch of the loop.) -/
theorem prepareResolveParams_absorbs (topLevels : Nat)
    (reqs l1 l2 : List ResolveRequest) (cur p : ResolveRequest)
    (hwf : ∀ r ∈ reqs, reqWF r)
    (hsplit : sortReqs reqs = l1 ++ cur :: l2)
    (hprev : (prepLoop topLevels initPrep l1).prevReq = some p)
    (hcontract : cur.contract = p.contract)
    (hpfx : cur.resolveHex.take cur.resolvePos <+: p.resolveHex.take p.resolvePos) :
    prepLoop topLevels initPrep (l1 ++ [cur]) =
      { prepLoop topLevels initPrep l1 with
        i := (prepLoop topLevels initPrep l1).i + 1,
        rss := updateLast (prepLoop topLevels initPrep l1).rss
                 (cur.resolveHex.drop cur.resolvePos) } := by
  have hpmem : p ∈ l1 := by
    rcases prevReq_mem topLevels l1 initPrep p hprev with h | h
    · exact h
    · cases h
  have hcur_mem : cur ∈ sortReqs reqs := by rw [hsplit]; simp
  have hp_mem : p ∈ sortReqs reqs := by rw [hsplit]; simp [hpmem]
  have hwf_cur : reqWF cur := hwf cur ((mem_sortReqs reqs cur).mp hcur_mem)
  have hwf_p : reqWF p := hwf p ((mem_sortReqs reqs p).mp hp_mem)
  have hsorted := sortReqs_sorted reqs hwf
  rw [hsplit] at hsorted
  have hnle : lessReq cur p = false := by
    have h5 := (List.pairwise_append.mp hsorted).2.2
    exact h5 p hpmem cur (by simp)
  have hweq : cur.resolveHex.take cur.resolvePos = p.resolveHex.take p.resolvePos := by
    by_contra hne
    have hlt : compareBytes (cur.resolveHex.take cur.resolvePos)
        (p.resolveHex.take p.resolvePos) = .lt := cb_prefix_lt _ _ hpfx hne
    have h6 : lessReq cur p = true :=
      (lessReq_iff cur p hwf_cur hwf_p).mpr (Or.inr ⟨hcontract, hlt⟩)
    rw [hnle] at h6
    cases h6
  have hkc : keepCond (prepLoop topLevels initPrep l1).prevReq cur = false := by
    rw [hprev]
    unfold keepCond
    simp [hcontract, hweq]
  rw [prepLoop_append]
  show prepStep topLevels (prepLoop topLevels initPrep l1) cur = _
  unfold prepStep
  rw [hkc]
  simp

theorem prepareResolveParams_absorbs_witness :
    prepLoop 0 initPrep ([⟨[], [1, 2], 2, []⟩] ++ [⟨[], [1, 2, 5], 2, []⟩]) =
      { prepLoop 0 initPrep [⟨[], [1, 2], 2, []⟩] with
        i := (prepLoop 0 initPrep [⟨[], [1, 2], 2, []⟩]).i + 1,
        rss := updateLast (prepLoop 0 initPrep [⟨[], [1, 2], 2, []⟩]).rss [5] } :=
  prepareResolveParams_absorbs 0 [⟨[], [1, 2], 2, []⟩, ⟨[], [1, 2, 5], 2, []⟩]
    [⟨[], [1, 2], 2, []⟩] [] ⟨[], [1, 2, 5], 2, []⟩ ⟨[], [1, 2], 2, []⟩
    (by decide) (by decide) (by decide) rfl ⟨[], rfl⟩
